import Mathlib

/-!
Verification of the core algorithms of the `anki-photoroster` repository
(`photoroster.py`, `anki-pdf-import.py`) against its specification.

Python strings are embedded as `List Char`; the handful of Python string
operations the code uses (`str.split(sep)`, `str.split()`, `str.partition`,
`str.lower`, `str.upper`, `"sep".join`, slicing, substring test `in`) are
defined below with the same semantics, restricted to ASCII case mapping,
which is all the inputs of this program use.  The filesystem touched by
`Student.save_photo` is embedded as a finite association list from path to
file bytes.  Fallible code (`raise ValueError`) is embedded with `Except`.
-/

/-- Python strings are modelled as lists of characters. -/
abbrev Str : Type := List Char

/-- Convenience coercion from Lean string literals to the `Str` model. -/
def strOf (s : String) : Str := s.data

/-- Split a character list at every character satisfying `p`, keeping empty
pieces, like Python `re`-free single-character splitting.  Always returns a
nonempty list of pieces. -/
def splitPred (p : Char → Bool) : Str → List Str
  | [] => [[]]
  | c :: rest =>
    let r := splitPred p rest
    if p c then [] :: r
    else
      match r with
      | [] => [[c]]
      | h :: t => (c :: h) :: t

/-- Python `s.split(sep)` for a single-character separator `sep`:
split at every occurrence, keeping empty pieces. -/
def splitChar (sep : Char) (s : Str) : List Str := splitPred (· == sep) s

/-- Python `s.split()` (no separator): split on whitespace runs and drop
empty pieces. -/
def splitWs (s : Str) : List Str := (splitPred Char.isWhitespace s).filter (· ≠ [])

/-- Python `s.split(", ")`, used by `Student._format_name` on name
components: split at every (leftmost-first, non-overlapping) occurrence of
the two-character separator `", "`. -/
def splitCommaSpace : Str → List Str
  | ',' :: ' ' :: rest => [] :: splitCommaSpace rest
  | c :: rest =>
    match splitCommaSpace rest with
    | [] => [[c]]
    | h :: t => (c :: h) :: t
  | [] => [[]]

/-- Python `sep.join(pieces)` for a single-character separator. -/
def joinChar (sep : Char) : List Str → Str
  | [] => []
  | [p] => p
  | p :: rest => p ++ sep :: joinChar sep rest

/-- Python `s.partition(" ")`, projected to the pair (head, tail): the text
before the first space and the text after it (tail is empty when there is
no space), as used on the `FIRST MIDDLE` component in
`Student._format_name`. -/
def partitionSp : Str → Str × Str
  | [] => ([], [])
  | c :: rest =>
    if c = ' ' then ([], rest)
    else
      let pr := partitionSp rest
      (c :: pr.1, pr.2)

/-- Python substring test `needle in hay` on strings. -/
def isSub (needle : Str) : Str → Bool
  | [] => needle.isEmpty
  | h :: t => needle.isPrefixOf (h :: t) || isSub needle t

/-- The tuple `("DE", "EL", "LA", "LOS", "LAS")` tested (by exact equality)
in `Student._name_fixcase_hyphenated`, photoroster.py line 261. -/
def upperParticles : List Str := [strOf "DE", strOf "EL", strOf "LA", strOf "LOS", strOf "LAS"]

/-- `Student._name_fixcase_word` (photoroster.py lines 266-273):
`name = name[:1] + name[1:].lower()`, then if the first two characters are
`Mc`, `O'` or `D'`, upper-case the third character. -/
def fixcaseWord (w : Str) : Str :=
  let w1 := w.take 1 ++ (w.drop 1).map Char.toLower
  if w1.take 2 ∈ [strOf "Mc", strOf "O'", strOf "D'"] then
    w1.take 2 ++ ((w1.drop 2).take 1).map Char.toUpper ++ w1.drop 3
  else w1

/-- `Student._name_fixcase_hyphenated` (photoroster.py lines 257-264):
a word equal to one of the upper-case particles is lower-cased verbatim;
otherwise the word is split on `-`, each piece is case-corrected by
`fixcaseWord` and the pieces are re-joined with `-`. -/
def fixcaseHyphenated (w : Str) : Str :=
  if w ∈ upperParticles then w.map Char.toLower
  else joinChar '-' ((splitChar '-' w).map fixcaseWord)

/-- `Student._name_fixcase` (photoroster.py lines 250-255): split on
whitespace, case-correct each word, re-join with single spaces. -/
def fixcaseStr (s : Str) : Str := joinChar ' ' ((splitWs s).map fixcaseHyphenated)

/-- The result of matching `Student._PARENSFORMAT`, the regex
`(.*)[(](.*)[)](.*)` (photoroster.py line 189), against a name, with
Python backtracking semantics: group 1 is everything before the last `(`
that is followed by some `)`, group 2 is everything from there to the last
`)` of the remainder, group 3 is the rest.  `none` when the regex does not
match, i.e. when no `(` is followed by a `)`. -/
def parenSplit (s : Str) : Option (Str × Str × Str) :=
  match ((List.range s.length).filter
      (fun i => (s.drop i).take 1 == ['('] && (s.drop (i+1)).contains ')')).getLast? with
  | none => none
  | some i =>
    let trail := s.drop (i+1)
    match ((List.range trail.length).filter
        (fun j => (trail.drop j).take 1 == [')'])).getLast? with
    | none => none
    | some j => some (s.take i, trail.take j, trail.drop (j+1))

/-- The tail of `Student._format_name` (photoroster.py lines 221-248),
after the parenthetical has been stripped: `nm` is the remaining name text
and `realfirst0` the case-corrected parenthetical first name (empty when
there was none).  Splits on `", "`, extracts suffix, first, middle and
last names and assembles the preferred and full names. -/
def formatNameTail (nm realfirst0 : Str) : Except Str (Str × Str) :=
  let components := splitCommaSpace nm
  if components.length > 3 then
    .error (strOf "Too many components in name " ++ nm)
  else
    let suffix :=
      if components.length = 3 then
        let s := components.getD 2 []
        if s = strOf "JR" then strOf "Jr" else if s = strOf "SR" then strOf "Sr" else s
      else []
    let fmr :=
      if 2 ≤ components.length then
        if realfirst0 ≠ [] then (fixcaseStr (components.getD 1 []), ([] : Str), realfirst0)
        else
          let pr := partitionSp (components.getD 1 [])
          (fixcaseStr pr.1, fixcaseStr pr.2, fixcaseStr pr.1)
      else ([], [], realfirst0)
    let firstname := fmr.1
    let middlename := fmr.2.1
    let realfirst := fmr.2.2
    let lastname := fixcaseStr (components.getD 0 [])
    let preferredname := if firstname ≠ [] then firstname ++ ' ' :: lastname else lastname
    let fullname := joinChar ' ' (([realfirst, middlename, lastname, suffix]).filter (· ≠ []))
    .ok (preferredname, fullname)

/-- `Student._format_name` (photoroster.py lines 190-248): match the
parenthetical-preferred-name regex; on a match, characters after the `)`
are an error, otherwise the parenthetical is the real first name and the
text before the `(` is the remaining name; then defer to
`formatNameTail`. -/
def formatName (nm : Str) : Except Str (Str × Str) :=
  match parenSplit nm with
  | some (pre, inner, junk) =>
    let realfirst := fixcaseStr inner
    if junk ≠ [] then .error (strOf "Unexpected characters after parentheses in name " ++ pre)
    else formatNameTail pre realfirst
  | none => formatNameTail nm []

example : fixcaseStr (strOf "DE LA CRUZ") = strOf "de la Cruz" := by decide
example : fixcaseStr (strOf "MCDONALD") = strOf "McDonald" := by decide
example : fixcaseStr (strOf "O'BRIEN") = strOf "O'Brien" := by decide
example : fixcaseStr (strOf "De La Cruz") = strOf "De La Cruz" := by decide
example : formatName (strOf "SMITH, BOB (ROBERT)") =
    .ok (strOf "Bob Smith", strOf "Robert Smith") := by rfl
example : formatName (strOf "SMITH, JOHN ALLEN, JR") =
    .ok (strOf "John Smith", strOf "John Allen Smith Jr") := by rfl
example : formatName (strOf "SMITH, JOHN, jr") =
    .ok (strOf "John Smith", strOf "John Smith jr") := by rfl

/-- `TERM_ABBREVS` (photoroster.py line 44): the 1-letter term code map. -/
def termAbbrevs (c : Char) : Option Str :=
  if c = 'W' then some (strOf "Winter")
  else if c = 'S' then some (strOf "Spring")
  else if c = '1' then some (strOf "Summer")
  else if c = 'F' then some (strOf "Fall")
  else none

/-- The result of `COURSEDESC_FORMAT.fullmatch` (photoroster.py line 45),
the regex `\s*(\S+)\s+(\S+)\s+\S+\s+(\S+)\s+-\s+(\S+)\s*`, on the course
description.  Since every `(\S+)`/`\S+` is delimited by mandatory
whitespace (or the ends of the string) and the literal `-` must be
surrounded by whitespace, the regex matches exactly when the whitespace
tokenization of the string is six tokens whose fifth is exactly `-`, and
the four groups are then tokens 1, 2, 4 and 6 (token 3 is the unused,
skipped `\S+`). -/
def courseDescGroups (s : Str) : Option (Str × Str × Str × Str) :=
  match splitWs s with
  | [t1, t2, _, t4, d, t6] => if d = ['-'] then some (t1, t2, t4, t6) else none
  | _ => none

/-- `PhotoRoster.course_tag` (photoroster.py lines 64-79) as a function of
the first line of page-1 text: drop the first 17 characters (the length of
`"Photo Roster for "` — the code slices unconditionally, it does not check
them), match the course-description regex (`ValueError` on mismatch), read
the term name from character 2 of the `term` group (`IndexError` when it is
shorter, `KeyError` when the letter is not a term code) and the 2-digit
year from its first two characters, and assemble
`SUBJECT+NUMBER-SECTION-TERMNAME-20YY`. -/
def courseTag (headerLine : Str) : Except Str Str :=
  match courseDescGroups (headerLine.drop 17) with
  | none => .error (strOf "Could not parse course description " ++ headerLine)
  | some (subject, coursenumber, sect, term) =>
    match term.drop 2 with
    | [] => .error (strOf "IndexError: string index out of range")
    | c :: _ =>
      match termAbbrevs c with
      | none => .error (strOf "KeyError: " ++ [c])
      | some termName =>
        .ok (subject ++ coursenumber ++ '-' :: sect ++ '-' :: termName
             ++ '-' :: '2' :: '0' :: term.take 2)

example : courseTag (strOf "Photo Roster for MATH 115A LEC 1 - 13F") =
    .ok (strOf "MATH115A-1-Fall-2013") := by rfl
example : courseTag (strOf "Photo Roster for MATH115A 1 LEC 13F - ...") =
    .error (strOf "KeyError: .") := by rfl

/-- `Student.merge_tags` (photoroster.py lines 177-181): walk the record's
own tags; any tag not already in the passed list `tags` is appended to it
(the Python loop mutates `tags` in place, so later membership tests see
the earlier appends); the result replaces the record's tag list. -/
def mergeTags (selfTags tags : List Str) : List Str :=
  match selfTags with
  | [] => tags
  | t :: rest => if t ∈ tags then mergeTags rest tags else mergeTags rest (tags ++ [t])

example : mergeTags [strOf "201X-Fall", strOf "EXTRA"] [strOf "201X-Fall"] =
    [strOf "201X-Fall", strOf "EXTRA"] := by decide

/-- The fields of a `Student` object (photoroster.py lines 127-135) that
the reconciliation logic reads or writes; the photo asset and the raw
roster name are not consulted by `check_existing` and are omitted. -/
structure Student where
  idnumber : Str
  preferredname : Str
  fullname : Str
  tags : List Str
deriving DecidableEq

/-- The warning lines printed by `check_existing`
(anki-pdf-import.py lines 60-67), as structured data. -/
inductive WarnMsg where
  | namesHeader (idnumber : Str)
  | prefDiff (anki new : Str)
  | fullDiff (anki new : Str)
  | keeping
deriving DecidableEq

/-- `check_existing(student, existing_students)` (anki-pdf-import.py lines
54-70), with the lookup result for the student's id passed in as `entry`
and the printed warnings returned as data: when there is no existing entry
the student is returned untouched; otherwise, if either name differs, the
existing names overwrite both of the student's names and a warning is
emitted naming each differing field; in every existing-entry case the
existing tag string is whitespace-split and merged into the student's
tags.  The function is total: a name conflict never raises. -/
def checkExisting (student : Student) (entry : Option (Str × Str × Str)) :
    Student × List WarnMsg :=
  match entry with
  | none => (student, [])
  | some (preferredname, fullname, tags) =>
    let warnings :=
      if preferredname ≠ student.preferredname ∨ fullname ≠ student.fullname then
        [WarnMsg.namesHeader student.idnumber]
        ++ (if preferredname ≠ student.preferredname then
              [WarnMsg.prefDiff preferredname student.preferredname] else [])
        ++ (if fullname ≠ student.fullname then
              [WarnMsg.fullDiff fullname student.fullname] else [])
        ++ [WarnMsg.keeping]
      else []
    let student1 :=
      if preferredname ≠ student.preferredname ∨ fullname ≠ student.fullname then
        { student with preferredname := preferredname, fullname := fullname }
      else student
    let student2 := { student1 with tags := mergeTags student1.tags (splitWs tags) }
    (student2, warnings)

/-- The existing-student store built by `load_existing_students`
(photoroster.py lines 23-41): a finite map, id number to
(preferred name, full name, tags string), modelled as an association list
(the Python dict keys are unique). -/
abbrev Store : Type := List (Str × (Str × Str × Str))

/-- The seeding of the drop-detection set (anki-pdf-import.py lines
102-104): `course_tag` is wrapped in one space on each side and the set
holds exactly the ids whose tags string contains that space-wrapped tag as
a substring. -/
def thisCourse (store : Store) (ctag : Str) : List Str :=
  (store.filter (fun e => isSub (' ' :: (ctag ++ [' '])) e.2.2.2)).map Prod.fst

/-- The per-student `this_course.discard(student.idnumber)` loop
(anki-pdf-import.py line 108) applied over the whole roster: each
processed roster id is removed from the seeded set. -/
def remainingAfter (seeded : List Str) (rosterIds : List Str) : List Str :=
  rosterIds.foldl (fun s i => s.filter (· ≠ i)) seeded

/-- File contents are byte lists. -/
abbrev Bytes : Type := List Nat

/-- The directory state `Student.save_photo` operates on: a finite
association list from path to file bytes (earliest entry wins). -/
abbrev FS : Type := List (Str × Bytes)

/-- Contents of the file at path `p`, `none` when no such file exists
(`os.path.exists`). -/
def FS.get : FS → Str → Option Bytes
  | [], _ => none
  | (q, b) :: rest, p => if q = p then some b else FS.get rest p

/-- Remove the file at path `p` (`os.remove`), a no-op when absent. -/
def FS.del : FS → Str → FS
  | [], _ => []
  | (q, b) :: rest, p => if q = p then FS.del rest p else (q, b) :: FS.del rest p

/-- Write bytes `b` to path `p`, replacing any existing file
(`shutil.move` of a fresh temporary file onto `p`). -/
def FS.set (fs : FS) (p : Str) (b : Bytes) : FS := (p, b) :: fs.del p

/-- `os.rename(src, dst)`: the destination receives the source's bytes
(silently replacing any file at `dst`) and the source disappears.  A
missing source would raise in Python; `save_photo` below only renames
paths it knows exist, so that branch is the identity here. -/
def FS.rename (fs : FS) (src dst : Str) : FS :=
  match fs.get src with
  | some b => (fs.del src).set dst b
  | none => fs

/-- Decimal rendering of a natural number, as Python `str(i)` /
`"{}".format(i)` produce; the fuel argument of the helper is always
sufficient since a number below `10 ^ fuel` has at most `fuel` digits. -/
def digitChar (d : Nat) : Char := Char.ofNat (48 + d)

/-- Helper for `natToChars`: structurally recursive on the fuel. -/
def natToCharsAux : Nat → Nat → Str
  | 0, _ => []
  | fuel + 1, n =>
    if n < 10 then [digitChar n]
    else natToCharsAux fuel (n / 10) ++ [digitChar (n % 10)]

/-- Python `str(i)` for a natural number. -/
def natToChars (n : Nat) : Str := natToCharsAux (n + 1) n

example : natToChars 0 = strOf "0" := by decide
example : natToChars 137 = strOf "137" := by decide

/-- `os.path.join(directory, filename)` for the relative filenames
`save_photo` joins (the second argument never starts with `/` here). -/
def pathJoin (dir f : Str) : Str :=
  if dir = [] then f
  else if dir.getLast? = some '/' then dir ++ f
  else dir ++ '/' :: f

/-- `Student.photo_filename` (photoroster.py lines 137-138) joined onto
the target directory: the canonical photo path
`directory/UCLA_Student_<id>.jpg`. -/
def canonicalPath (dir idn : Str) : Str :=
  pathJoin dir (strOf "UCLA_Student_" ++ idn ++ strOf ".jpg")

/-- The numbered backup path `photopath[:-4] + ".old{i}.jpg"` built by the
backup-search loop in `Student.save_photo` (photoroster.py line 159). -/
def oldPath (canonical : Str) (i : Nat) : Str :=
  canonical.take (canonical.length - 4) ++ strOf ".old" ++ natToChars i ++ strOf ".jpg"

/-- Helper for `freeIdx`: try `i`, `i+1`, ... until an unused backup path
is found, with enough fuel; `freeIdx_spec` below proves the fuel

`fs.length + 1` always suffices, so the fuel-exhausted branch is
unreachable. -/
def freeIdxAux (fs : FS) (c : Str) : Nat → Nat → Nat
  | 0, i => i
  | fuel + 1, i => if fs.get (oldPath c i) = none then i else freeIdxAux fs c fuel (i + 1)

/-- The index reached by the backup-search `while` loop of
`Student.save_photo` (photoroster.py lines 156-159) when the canonical
path exists: the least `i ≥ 1` such that `photopath[:-4] + ".old{i}.jpg"`
names no existing file. -/
def freeIdx (fs : FS) (c : Str) : Nat := freeIdxAux fs c (fs.length + 1) 1

/-- `Student.save_photo(directory)` (photoroster.py lines 140-175) over
the directory state `fs`, for the student id `idn` whose extracted photo
bytes are `newBytes`.  Follows the source line by line: compute the
canonical path; run the backup-search loop (its result is the canonical
path itself exactly when no file exists there, else the first free
numbered backup path); pick the write target (`photopath + ".NEW"` when a
file exists, else the canonical path); move the new photo there; then
either report no backup (fresh write), discard the new copy when its
bytes equal the existing file's (`filecmp.cmp`, modelled as content
equality), or rename existing to backup and new to canonical and report
the backup path. -/
def savePhoto (fs : FS) (dir idn : Str) (newBytes : Bytes) : FS × Option Str :=
  let photopath := canonicalPath dir idn
  let backup := if fs.get photopath = none then photopath
    else oldPath photopath (freeIdx fs photopath)
  let pnew := if backup ≠ photopath then photopath ++ strOf ".NEW" else photopath
  let fs1 := fs.set pnew newBytes
  if backup = photopath then (fs1, none)
  else if fs1.get photopath = fs1.get pnew then (fs1.del pnew, none)
  else
    let fs2 := fs1.rename photopath backup
    let fs3 := fs2.rename pnew photopath
    (fs3, some backup)

example :
    savePhoto [(strOf "d/UCLA_Student_7.jpg", [1])] (strOf "d") (strOf "7") [2] =
      ([(strOf "d/UCLA_Student_7.jpg", [2]), (strOf "d/UCLA_Student_7.old1.jpg", [1])],
       some (strOf "d/UCLA_Student_7.old1.jpg")) := by decide
example :
    savePhoto [] (strOf "d") (strOf "7") [2] =
      ([(strOf "d/UCLA_Student_7.jpg", [2])], none) := by decide
example :
    savePhoto [(strOf "d/UCLA_Student_7.jpg", [2])] (strOf "d") (strOf "7") [2] =
      ([(strOf "d/UCLA_Student_7.jpg", [2])], none) := by decide

/-- Decimal parsing, a left inverse of `natToChars` used to prove that
distinct backup numbers give distinct backup paths. -/
def charsToNat (s : Str) : Nat := s.foldl (fun a c => a * 10 + (c.toNat - 48)) 0

/-- The single-word case-correction rule exactly as the specification
words it (§4.1 "Case correction"), for comparison with the
implementation's `fixcaseHyphenated`: a particle compared
case-insensitively stays lower-case; otherwise the first letter is
capitalized and the rest lower-cased, and if the first two characters are
then `Mc`, `O'` or `D'` the third character is additionally
capitalized. -/
def specFixcaseWord (w : Str) : Str :=
  if w.map Char.toLower ∈ upperParticles.map (List.map Char.toLower) then w.map Char.toLower
  else
    let w1 := (w.take 1).map Char.toUpper ++ (w.drop 1).map Char.toLower
    if w1.take 2 ∈ [strOf "Mc", strOf "O'", strOf "D'"] then
      w1.take 2 ++ ((w1.drop 2).take 1).map Char.toUpper ++ w1.drop 3
    else w1

/-- The character set registrar-supplied name words are drawn from
(upper-case ASCII letters and the apostrophe), the hypothesis under which
the implementation's case correction agrees with the specification's
wording. -/
def upperChars : Str := strOf "ABCDEFGHIJKLMNOPQRSTUVWXYZ'"

theorem FS.get_del (fs : FS) (p q : Str) :
    (fs.del p).get q = if q = p then none else fs.get q := by
  induction fs with
  | nil => simp [FS.del, FS.get]
  | cons hd tl ih =>
    obtain ⟨r, b⟩ := hd
    by_cases hrp : r = p <;> by_cases hqp : q = p <;> by_cases hrq : r = q <;>
      simp_all [FS.del, FS.get]

theorem FS.get_set (fs : FS) (p q : Str) (b : Bytes) :
    (fs.set p b).get q = if q = p then some b else fs.get q := by
  by_cases hqp : q = p
  · simp [hqp, FS.set, FS.get, FS.get_del]
  · simp [hqp, Ne.symm hqp, FS.set, FS.get, FS.get_del]

theorem FS.mem_keys_of_get_ne_none (fs : FS) (p : Str) (h : fs.get p ≠ none) :
    p ∈ fs.map Prod.fst := by
  induction fs with
  | nil => simp [FS.get] at h
  | cons hd tl ih =>
    obtain ⟨r, b⟩ := hd
    by_cases hrp : r = p
    · simp [hrp]
    · simp only [FS.get, if_neg hrp] at h
      simpa using Or.inr (ih h)

theorem digitChar_val (d : Nat) (h : d < 10) : (digitChar d).toNat - 48 = d := by
  interval_cases d <;> decide

theorem charsToNat_append_digit (s : Str) (c : Char) :
    charsToNat (s ++ [c]) = charsToNat s * 10 + (c.toNat - 48) := by
  simp [charsToNat, List.foldl_append]

theorem charsToNat_natToCharsAux (fuel n : Nat) (h : n < fuel) :
    charsToNat (natToCharsAux fuel n) = n := by
  induction fuel generalizing n with
  | zero => omega
  | succ fuel ih =>
    by_cases h10 : n < 10
    · simp [natToCharsAux, h10, charsToNat, digitChar_val n h10]
    · have hdiv : n / 10 < fuel := by
        have h1 : n / 10 < n := Nat.div_lt_self (by omega) (by omega)
        omega
      simp only [natToCharsAux, if_neg h10, charsToNat_append_digit, ih _ hdiv,
        digitChar_val _ (Nat.mod_lt n (by omega))]
      omega

theorem charsToNat_natToChars (n : Nat) : charsToNat (natToChars n) = n :=
  charsToNat_natToCharsAux (n + 1) n (Nat.lt_succ_self n)

theorem natToChars_inj : Function.Injective natToChars := by
  intro m n h
  have := charsToNat_natToChars m
  rw [h, charsToNat_natToChars] at this
  omega

theorem natToCharsAux_ne_nil (fuel n : Nat) : natToCharsAux (fuel + 1) n ≠ [] := by
  by_cases h10 : n < 10 <;> simp [natToCharsAux, h10]

theorem natToChars_ne_nil (n : Nat) : natToChars n ≠ [] := natToCharsAux_ne_nil n n

theorem oldPath_inj_idx (c : Str) (i j : Nat) (h : oldPath c i = oldPath c j) : i = j := by
  unfold oldPath at h
  have h1 := List.append_cancel_right h
  have h2 := List.append_cancel_left h1
  exact natToChars_inj h2

theorem oldPath_length (c : Str) (i : Nat) (h : 4 ≤ c.length) :
    (oldPath c i).length = c.length + (natToChars i).length + 4 := by
  simp [oldPath, strOf]
  omega

theorem oldPath_ne_self (c : Str) (i : Nat) (h : 4 ≤ c.length) : oldPath c i ≠ c := by
  intro he
  have := congrArg List.length he
  rw [oldPath_length c i h] at this
  have hne := natToChars_ne_nil i
  have : (natToChars i).length ≠ 0 := fun h0 => hne (List.eq_nil_of_length_eq_zero h0)
  omega

theorem freeIdxAux_spec (fs : FS) (c : Str) :
    ∀ fuel i, (∃ k, k < fuel ∧ fs.get (oldPath c (i + k)) = none) →
      fs.get (oldPath c (freeIdxAux fs c fuel i)) = none ∧
      i ≤ freeIdxAux fs c fuel i ∧
      ∀ j, i ≤ j → j < freeIdxAux fs c fuel i → fs.get (oldPath c j) ≠ none := by
  intro fuel
  induction fuel with
  | zero => intro i ⟨k, hk, _⟩; omega
  | succ fuel ih =>
    intro i ⟨k, hk, hfree⟩
    by_cases h0 : fs.get (oldPath c i) = none
    · refine ⟨by simp [freeIdxAux, h0], ?_, ?_⟩
      · simp [freeIdxAux, h0]
      · intro j hij hlt
        simp [freeIdxAux, h0] at hlt
        omega
    · have hk0 : k ≠ 0 := by
        intro h; rw [h] at hfree; simp at hfree; exact h0 hfree
      obtain ⟨k', rfl⟩ : ∃ k', k = k' + 1 := ⟨k - 1, by omega⟩
      have hprem : ∃ m, m < fuel ∧ fs.get (oldPath c (i + 1 + m)) = none :=
        ⟨k', by omega, by rw [show i + 1 + k' = i + (k' + 1) by omega]; exact hfree⟩
      obtain ⟨hf, hle, hleast⟩ := ih (i + 1) hprem
      have heq : freeIdxAux fs c (fuel + 1) i = freeIdxAux fs c fuel (i + 1) := by
        simp [freeIdxAux, h0]
      refine ⟨by rw [heq]; exact hf, by omega, ?_⟩
      intro j hij hlt
      rw [heq] at hlt
      rcases Nat.eq_or_lt_of_le hij with rfl | hij'
      · exact h0
      · exact hleast j (by omega) hlt

theorem exists_free_slot (fs : FS) (c : Str) :
    ∃ k, k < fs.length + 1 ∧ fs.get (oldPath c (1 + k)) = none := by
  by_contra hall
  push_neg at hall
  have hmem : ∀ k : Fin (fs.length + 1), oldPath c (1 + (k : Nat)) ∈ fs.map Prod.fst :=
    fun k => FS.mem_keys_of_get_ne_none fs _ (hall k k.2)
  have hinj : ∀ a ∈ (Finset.univ : Finset (Fin (fs.length + 1))),
      ∀ b ∈ Finset.univ, (fun k : Fin (fs.length + 1) => oldPath c (1 + (k : Nat))) a =
        (fun k : Fin (fs.length + 1) => oldPath c (1 + (k : Nat))) b → a = b := by
    intro a _ b _ hab
    have := oldPath_inj_idx c _ _ hab
    exact Fin.ext (by omega)
  have hcard := Finset.card_le_card_of_injOn
    (fun k : Fin (fs.length + 1) => oldPath c (1 + (k : Nat)))
    (fun a _ => List.mem_toFinset.mpr (hmem a)) hinj
  simp only [Finset.card_univ, Fintype.card_fin] at hcard
  have := (fs.map Prod.fst).toFinset_card_le
  simp only [List.length_map] at this
  omega

theorem freeIdx_spec (fs : FS) (c : Str) :
    fs.get (oldPath c (freeIdx fs c)) = none ∧ 1 ≤ freeIdx fs c ∧
      ∀ j, 1 ≤ j → j < freeIdx fs c → fs.get (oldPath c j) ≠ none := by
  exact freeIdxAux_spec fs c (fs.length + 1) 1 (exists_free_slot fs c)

theorem canonicalPath_length (dir idn : Str) : 4 ≤ (canonicalPath dir idn).length := by
  simp only [canonicalPath, pathJoin]
  split_ifs <;> simp [strOf] <;> omega

theorem append_NEW_ne (c : Str) : c ++ strOf ".NEW" ≠ c := by
  intro h
  have := congrArg List.length h
  simp [strOf] at this

theorem savePhoto_fresh (fs : FS) (dir idn : Str) (b : Bytes)
    (h : fs.get (canonicalPath dir idn) = none) :
    savePhoto fs dir idn b = (fs.set (canonicalPath dir idn) b, none) := by
  simp [savePhoto, h]

theorem savePhoto_same (fs : FS) (dir idn : Str) (b : Bytes)
    (h : fs.get (canonicalPath dir idn) = some b) :
    savePhoto fs dir idn b =
      ((fs.set (canonicalPath dir idn ++ strOf ".NEW") b).del
        (canonicalPath dir idn ++ strOf ".NEW"), none) := by
  have hb_ne : oldPath (canonicalPath dir idn) (freeIdx fs (canonicalPath dir idn)) ≠
      canonicalPath dir idn := oldPath_ne_self _ _ (canonicalPath_length dir idn)
  have hnew_ne := append_NEW_ne (canonicalPath dir idn)
  simp [savePhoto, h, hb_ne, FS.get_set, Ne.symm hnew_ne]

theorem savePhoto_diff (fs : FS) (dir idn : Str) (b ob : Bytes)
    (h : fs.get (canonicalPath dir idn) = some ob) (hne : ob ≠ b) :
    savePhoto fs dir idn b =
      (((fs.set (canonicalPath dir idn ++ strOf ".NEW") b).rename (canonicalPath dir idn)
          (oldPath (canonicalPath dir idn) (freeIdx fs (canonicalPath dir idn)))).rename
          (canonicalPath dir idn ++ strOf ".NEW") (canonicalPath dir idn),
       some (oldPath (canonicalPath dir idn) (freeIdx fs (canonicalPath dir idn)))) := by
  have hb_ne : oldPath (canonicalPath dir idn) (freeIdx fs (canonicalPath dir idn)) ≠
      canonicalPath dir idn := oldPath_ne_self _ _ (canonicalPath_length dir idn)
  have hnew_ne := append_NEW_ne (canonicalPath dir idn)
  simp [savePhoto, h, hb_ne, FS.get_set, Ne.symm hnew_ne, hne]

theorem oldPath_ne_NEW (c : Str) (i : Nat) (h : 4 ≤ c.length) :
    oldPath c i ≠ c ++ strOf ".NEW" := by
  intro he
  have hl := congrArg List.length he
  rw [oldPath_length c i h, List.length_append] at hl
  have h4 : (strOf ".NEW").length = 4 := rfl
  rw [h4] at hl
  have : 0 < (natToChars i).length := List.length_pos.mpr (natToChars_ne_nil i)
  omega

/-- C3: when a file already exists at the canonical path with bytes
differing from the new photo, `save_photo` renames the existing file to
the numbered backup path with the lowest unused number (starting at 1),
moves the new photo to the canonical path, returns the backup path,
produces exactly one new backup file and overwrites no pre-existing
file. -/
theorem save_photo_divergent_backup (fs : FS) (dir idn : Str) (newB oldB : Bytes)
    (hex : fs.get (canonicalPath dir idn) = some oldB)
    (hne : oldB ≠ newB) :
    (savePhoto fs dir idn newB).2 =
      some (oldPath (canonicalPath dir idn) (freeIdx fs (canonicalPath dir idn))) ∧
    (savePhoto fs dir idn newB).1.get (canonicalPath dir idn) = some newB ∧
    (savePhoto fs dir idn newB).1.get
      (oldPath (canonicalPath dir idn) (freeIdx fs (canonicalPath dir idn))) = some oldB ∧
    fs.get (oldPath (canonicalPath dir idn) (freeIdx fs (canonicalPath dir idn))) = none ∧
    1 ≤ freeIdx fs (canonicalPath dir idn) ∧
    (∀ j, 1 ≤ j → j < freeIdx fs (canonicalPath dir idn) →
      fs.get (oldPath (canonicalPath dir idn) j) ≠ none) ∧
    (∀ p, p ≠ canonicalPath dir idn →
      p ≠ oldPath (canonicalPath dir idn) (freeIdx fs (canonicalPath dir idn)) →
      p ≠ canonicalPath dir idn ++ strOf ".NEW" →
      (savePhoto fs dir idn newB).1.get p = fs.get p) := by
  have hsd := savePhoto_diff fs dir idn newB oldB hex hne
  obtain ⟨hfree, hone, hleast⟩ := freeIdx_spec fs (canonicalPath dir idn)
  set cp := canonicalPath dir idn with hcp
  set bk := oldPath cp (freeIdx fs cp) with hbk
  set pnew := cp ++ strOf ".NEW" with hpnew
  have hbk_cp : bk ≠ cp := oldPath_ne_self _ _ (canonicalPath_length dir idn)
  have hpnew_cp : pnew ≠ cp := append_NEW_ne cp
  have hbk_pnew : bk ≠ pnew := oldPath_ne_NEW _ _ (canonicalPath_length dir idn)
  set fs1 := fs.set pnew newB with hfs1
  have hget1cp : fs1.get cp = some oldB := by
    rw [hfs1, FS.get_set, if_neg (Ne.symm hpnew_cp), hex]
  have hr1 : fs1.rename cp bk = (fs1.del cp).set bk oldB := by
    rw [FS.rename, hget1cp]
  set fs2 := (fs1.del cp).set bk oldB with hfs2
  have hget2pnew : fs2.get pnew = some newB := by
    rw [hfs2, FS.get_set, if_neg (Ne.symm hbk_pnew), FS.get_del,
      if_neg (Ne.symm hpnew_cp).symm, hfs1, FS.get_set, if_pos rfl]
  have hr2 : fs2.rename pnew cp = (fs2.del pnew).set cp newB := by
    rw [FS.rename, hget2pnew]
  have hres : savePhoto fs dir idn newB = ((fs2.del pnew).set cp newB, some bk) := by
    rw [hsd, hr1, hr2]
  refine ⟨by rw [hres], ?_, ?_, hfree, hone, hleast, ?_⟩
  · rw [hres, FS.get_set, if_pos rfl]
  · rw [hres, FS.get_set, if_neg hbk_cp, FS.get_del, if_neg hbk_pnew, hfs2,
      FS.get_set, if_pos rfl]
  · intro p hp_cp hp_bk hp_pnew
    rw [hres, FS.get_set, if_neg hp_cp, FS.get_del, if_neg hp_pnew, hfs2,
      FS.get_set, if_neg hp_bk, FS.get_del, if_neg hp_cp, hfs1,
      FS.get_set, if_neg hp_pnew]

/-- Witness for C3 at a concrete input: a directory holding one photo with
bytes `[1]` for student `7`; saving differing bytes `[2]` backs the old
file up at `.old1.jpg`, puts the new bytes at the canonical path and
touches nothing else. -/
theorem save_photo_divergent_backup_witness :
    (savePhoto [(strOf "d/UCLA_Student_7.jpg", [1])] (strOf "d") (strOf "7") [2]).2 =
      some (strOf "d/UCLA_Student_7.old1.jpg") ∧
    (savePhoto [(strOf "d/UCLA_Student_7.jpg", [1])] (strOf "d") (strOf "7") [2]).1.get
      (strOf "d/UCLA_Student_7.jpg") = some [2] ∧
    (savePhoto [(strOf "d/UCLA_Student_7.jpg", [1])] (strOf "d") (strOf "7") [2]).1.get
      (strOf "d/UCLA_Student_7.old1.jpg") = some [1] := by
  have h := save_photo_divergent_backup [(strOf "d/UCLA_Student_7.jpg", [1])]
    (strOf "d") (strOf "7") [2] [1] (by decide) (by decide)
  exact ⟨h.1, h.2.1, h.2.2.1⟩

theorem savePhoto_diff_result (fs : FS) (dir idn : Str) (b ob : Bytes)
    (h : fs.get (canonicalPath dir idn) = some ob) (hne : ob ≠ b) :
    savePhoto fs dir idn b =
      (((((fs.set (canonicalPath dir idn ++ strOf ".NEW") b).del (canonicalPath dir idn)).set
          (oldPath (canonicalPath dir idn) (freeIdx fs (canonicalPath dir idn))) ob).del
          (canonicalPath dir idn ++ strOf ".NEW")).set (canonicalPath dir idn) b,
       some (oldPath (canonicalPath dir idn) (freeIdx fs (canonicalPath dir idn)))) := by
  have hsd := savePhoto_diff fs dir idn b ob h hne
  set cp := canonicalPath dir idn with hcp
  set bk := oldPath cp (freeIdx fs cp) with hbk
  set pnew := cp ++ strOf ".NEW" with hpnew
  have hbk_cp : bk ≠ cp := oldPath_ne_self _ _ (canonicalPath_length dir idn)
  have hpnew_cp : pnew ≠ cp := append_NEW_ne cp
  have hbk_pnew : bk ≠ pnew := oldPath_ne_NEW _ _ (canonicalPath_length dir idn)
  set fs1 := fs.set pnew b with hfs1
  have hget1cp : fs1.get cp = some ob := by
    rw [hfs1, FS.get_set, if_neg (Ne.symm hpnew_cp), h]
  have hr1 : fs1.rename cp bk = (fs1.del cp).set bk ob := by
    rw [FS.rename, hget1cp]
  set fs2 := (fs1.del cp).set bk ob with hfs2
  have hget2pnew : fs2.get pnew = some b := by
    rw [hfs2, FS.get_set, if_neg (Ne.symm hbk_pnew), FS.get_del,
      if_neg (Ne.symm hpnew_cp).symm, hfs1, FS.get_set, if_pos rfl]
  have hr2 : fs2.rename pnew cp = (fs2.del pnew).set cp b := by
    rw [FS.rename, hget2pnew]
  rw [hsd, hr1, hr2]

theorem savePhoto_get_canonical (fs : FS) (dir idn : Str) (b : Bytes) :
    (savePhoto fs dir idn b).1.get (canonicalPath dir idn) = some b := by
  have hpnew_cp := append_NEW_ne (canonicalPath dir idn)
  rcases hcp : fs.get (canonicalPath dir idn) with _ | ob
  · rw [savePhoto_fresh fs dir idn b hcp, FS.get_set, if_pos rfl]
  · by_cases hob : ob = b
    · rw [hob] at hcp
      rw [savePhoto_same fs dir idn b hcp, FS.get_del, if_neg (Ne.symm hpnew_cp),
        FS.get_set, if_neg (Ne.symm hpnew_cp), hcp]
    · rw [savePhoto_diff_result fs dir idn b ob hcp hob, FS.get_set, if_pos rfl]

/-- C4: `save_photo` reports no backup exactly when either no file exists
at the canonical path (the new photo is then written directly there) or
the existing file's bytes equal the new photo's bytes (the new copy is
then discarded and no other path is disturbed); in every case the
canonical path afterwards holds the new bytes, and a second save of the
same bytes for the same id reports no backup. -/
theorem save_photo_no_backup_cases (fs : FS) (dir idn : Str) (b : Bytes) :
    ((savePhoto fs dir idn b).2 = none ↔
      fs.get (canonicalPath dir idn) = none ∨ fs.get (canonicalPath dir idn) = some b) ∧
    (savePhoto fs dir idn b).1.get (canonicalPath dir idn) = some b ∧
    (fs.get (canonicalPath dir idn) = none →
      ∀ p, p ≠ canonicalPath dir idn → (savePhoto fs dir idn b).1.get p = fs.get p) ∧
    (fs.get (canonicalPath dir idn) = some b →
      ∀ p, p ≠ canonicalPath dir idn ++ strOf ".NEW" →
        (savePhoto fs dir idn b).1.get p = fs.get p) ∧
    (savePhoto (savePhoto fs dir idn b).1 dir idn b).2 = none := by
  have hpnew_cp := append_NEW_ne (canonicalPath dir idn)
  have hsecond : (savePhoto (savePhoto fs dir idn b).1 dir idn b).2 = none := by
    rw [savePhoto_same (savePhoto fs dir idn b).1 dir idn b
      (savePhoto_get_canonical fs dir idn b)]
  refine ⟨?_, savePhoto_get_canonical fs dir idn b, ?_, ?_, hsecond⟩
  · rcases hcp : fs.get (canonicalPath dir idn) with _ | ob
    · simp [savePhoto_fresh fs dir idn b hcp]
    · by_cases hob : ob = b
      · rw [hob] at hcp
        simp [savePhoto_same fs dir idn b hcp, hcp, hob]
      · rw [savePhoto_diff_result fs dir idn b ob hcp hob]
        simp [hob]
  · intro hcp p hp
    rw [savePhoto_fresh fs dir idn b hcp, FS.get_set, if_neg hp]
  · intro hcp p hp
    rw [savePhoto_same fs dir idn b hcp, FS.get_del, if_neg hp, FS.get_set, if_neg hp]

/-- Witness for C4 at concrete inputs: saving bytes `[2]` into an empty
directory reports no backup, and saving the same bytes again for the same
id reports no backup on the second call either. -/
theorem save_photo_no_backup_cases_witness :
    (savePhoto [] (strOf "d") (strOf "7") [2]).2 = none ∧
    (savePhoto (savePhoto [] (strOf "d") (strOf "7") [2]).1 (strOf "d") (strOf "7") [2]).2 =
      none := by
  have h := save_photo_no_backup_cases [] (strOf "d") (strOf "7") [2]
  exact ⟨h.1.mpr (Or.inl rfl), h.2.2.2.2⟩

/-- C5: `merge_tags` replaces the record's tag list by the existing tags
in their original order followed, in first-occurrence order, by exactly
those of the record's previous tags not already present, appending no
duplicate; in particular the spec's round-trip example holds. -/
theorem merge_tags_appends_missing (selfTags tags : List Str) :
    (∃ appended : List Str,
      mergeTags selfTags tags = tags ++ appended ∧
      appended.Sublist selfTags ∧
      appended.Nodup ∧
      (∀ t ∈ appended, t ∉ tags) ∧
      (∀ t ∈ selfTags, t ∉ tags → t ∈ appended)) ∧
    mergeTags [strOf "201X-Fall", strOf "EXTRA"] [strOf "201X-Fall"] =
      [strOf "201X-Fall", strOf "EXTRA"] := by
  refine ⟨?_, by decide⟩
  induction selfTags generalizing tags with
  | nil => exact ⟨[], by simp [mergeTags]⟩
  | cons t rest ih =>
    by_cases hmem : t ∈ tags
    · obtain ⟨ap, he, hsub, hnd, hnotmem, hcompl⟩ := ih tags
      refine ⟨ap, ?_, hsub.cons t, hnd, hnotmem, ?_⟩
      · simpa [mergeTags, hmem] using he
      · intro x hx hnx
        rcases List.mem_cons.mp hx with rfl | hx
        · exact absurd hmem hnx
        · exact hcompl x hx hnx
    · obtain ⟨ap, he, hsub, hnd, hnotmem, hcompl⟩ := ih (tags ++ [t])
      have hap_ne_t : ∀ x ∈ ap, x ≠ t := by
        intro x hx hxt
        exact hnotmem x hx (by simp [hxt])
      refine ⟨t :: ap, ?_, hsub.cons₂ t, ?_, ?_, ?_⟩
      · rw [mergeTags, if_neg hmem, he, List.append_assoc]
        rfl
      · exact List.nodup_cons.mpr ⟨fun hx => hap_ne_t t hx rfl, hnd⟩
      · intro x hx
        rcases List.mem_cons.mp hx with rfl | hx
        · exact hmem
        · intro hxtags
          exact hnotmem x hx (by simp [hxtags])
      · intro x hx hnx
        rcases List.mem_cons.mp hx with rfl | hx
        · exact List.mem_cons_self _ _
        · by_cases hxt : x = t
          · exact hxt ▸ List.mem_cons_self t ap
          · exact List.mem_cons_of_mem t (hcompl x hx (by simp [hnx, hxt]))

/-- Witness for C5 (its statement quantifies over the appended-tags
decomposition): the decomposition at the spec's round-trip example. -/
theorem merge_tags_appends_missing_witness :
    ∃ appended : List Str,
      mergeTags [strOf "201X-Fall", strOf "EXTRA"] [strOf "201X-Fall"] =
        [strOf "201X-Fall"] ++ appended ∧
      appended.Sublist [strOf "201X-Fall", strOf "EXTRA"] ∧
      appended.Nodup ∧
      (∀ t ∈ appended, t ∉ [strOf "201X-Fall"]) ∧
      (∀ t ∈ [strOf "201X-Fall", strOf "EXTRA"], t ∉ [strOf "201X-Fall"] → t ∈ appended) :=
  (merge_tags_appends_missing [strOf "201X-Fall", strOf "EXTRA"] [strOf "201X-Fall"]).1

theorem mergeTags_of_subset (s t : List Str) (h : ∀ x ∈ s, x ∈ t) : mergeTags s t = t := by
  induction s with
  | nil => rfl
  | cons a rest ih =>
    rw [mergeTags, if_pos (h a (List.mem_cons_self a rest))]
    exact ih fun x hx => h x (List.mem_cons_of_mem a hx)

/-- C10: `merge_tags` is idempotent — calling it again with a list equal
to the already-merged tag list appends nothing and leaves the tags
unchanged. -/
theorem merge_tags_idempotent (selfTags tags : List Str) :
    mergeTags (mergeTags selfTags tags) (mergeTags selfTags tags) = mergeTags selfTags tags :=
  mergeTags_of_subset _ _ fun _ hx => hx

/-- C6: reconciling a parsed student against an existing entry is total
(never raises); when either name differs the existing entry's names win
and a warning is surfaced for each differing field; when both names agree
the student's names and the warning list are untouched; in every case the
existing tags are merged into the record's tags and the id is
unchanged. -/
theorem check_existing_policy (s : Student) (pn fn tg : Str) :
    ((pn ≠ s.preferredname ∨ fn ≠ s.fullname) →
      (checkExisting s (some (pn, fn, tg))).1.preferredname = pn ∧
      (checkExisting s (some (pn, fn, tg))).1.fullname = fn ∧
      (pn ≠ s.preferredname →
        WarnMsg.prefDiff pn s.preferredname ∈ (checkExisting s (some (pn, fn, tg))).2) ∧
      (fn ≠ s.fullname →
        WarnMsg.fullDiff fn s.fullname ∈ (checkExisting s (some (pn, fn, tg))).2)) ∧
    ((pn = s.preferredname ∧ fn = s.fullname) →
      (checkExisting s (some (pn, fn, tg))).1.preferredname = s.preferredname ∧
      (checkExisting s (some (pn, fn, tg))).1.fullname = s.fullname ∧
      (checkExisting s (some (pn, fn, tg))).2 = []) ∧
    (checkExisting s (some (pn, fn, tg))).1.tags = mergeTags s.tags (splitWs tg) ∧
    (checkExisting s (some (pn, fn, tg))).1.idnumber = s.idnumber := by
  by_cases hdiff : pn ≠ s.preferredname ∨ fn ≠ s.fullname
  · refine ⟨fun _ => ⟨?_, ?_, ?_, ?_⟩, fun heq => ?_, ?_, ?_⟩
    · simp [checkExisting, hdiff]
    · simp [checkExisting, hdiff]
    · intro hp
      simp [checkExisting, hdiff, hp]
    · intro hf
      simp [checkExisting, hdiff, hf]
    · exact absurd hdiff (by simp [heq.1, heq.2])
    · simp [checkExisting, hdiff]
    · simp [checkExisting, hdiff]
  · refine ⟨fun h => absurd h hdiff, fun _ => ⟨?_, ?_, ?_⟩, ?_, ?_⟩ <;>
      simp [checkExisting, hdiff]

/-- Witness for C6 at a concrete input: an existing entry whose preferred
name differs; the existing names win, the differing field is warned
about, and the tags merge. -/
theorem check_existing_policy_witness :
    (checkExisting
        ⟨strOf "123", strOf "Bob Smith", strOf "Robert Smith", [strOf "T1"]⟩
        (some (strOf "Rob Smith", strOf "Robert Smith", strOf "T0 T1"))).1.preferredname =
      strOf "Rob Smith" ∧
    WarnMsg.prefDiff (strOf "Rob Smith") (strOf "Bob Smith") ∈
      (checkExisting
        ⟨strOf "123", strOf "Bob Smith", strOf "Robert Smith", [strOf "T1"]⟩
        (some (strOf "Rob Smith", strOf "Robert Smith", strOf "T0 T1"))).2 ∧
    (checkExisting
        ⟨strOf "123", strOf "Bob Smith", strOf "Robert Smith", [strOf "T1"]⟩
        (some (strOf "Rob Smith", strOf "Robert Smith", strOf "T0 T1"))).1.tags =
      mergeTags [strOf "T1"] (splitWs (strOf "T0 T1")) := by
  have h := check_existing_policy
    ⟨strOf "123", strOf "Bob Smith", strOf "Robert Smith", [strOf "T1"]⟩
    (strOf "Rob Smith") (strOf "Robert Smith") (strOf "T0 T1")
  have hd : strOf "Rob Smith" ≠ strOf "Bob Smith" := by decide
  exact ⟨(h.1 (Or.inl hd)).1, (h.1 (Or.inl hd)).2.2.1 hd, h.2.2.1⟩

theorem remainingAfter_mem (rosterIds : List Str) (seeded : List Str) (x : Str) :
    x ∈ remainingAfter seeded rosterIds ↔ x ∈ seeded ∧ x ∉ rosterIds := by
  induction rosterIds generalizing seeded with
  | nil => simp [remainingAfter]
  | cons r ros ih =>
    have hstep : remainingAfter seeded (r :: ros) = remainingAfter (seeded.filter (· ≠ r)) ros :=
      rfl
    rw [hstep, ih]
    simp only [List.mem_filter, List.mem_cons, decide_not]
    constructor
    · rintro ⟨⟨hx, hne⟩, hros⟩
      have : x ≠ r := by simpa using hne
      exact ⟨hx, by simp [this, hros]⟩
    · rintro ⟨hx, hall⟩
      push_neg at hall
      exact ⟨⟨hx, by simpa using hall.1⟩, hall.2⟩

/-- C7 counterexample: the drop-detection seeding does NOT use whole-token
matching.  A store entry whose tags string is exactly
`"MATH115A-1-Fall-2013 CS32-1-Fall-2013"` contains the course tag
`MATH115A-1-Fall-2013` as a whole whitespace token, and the student is on
no roster, yet the seeded set — and hence the reported drop set — is
empty, because the code searches for the tag wrapped in a space on each
side as a plain substring and the tags string has no leading space. -/
theorem drop_detection_token_counterexample :
    strOf "MATH115A-1-Fall-2013" ∈
      splitWs (strOf "MATH115A-1-Fall-2013 CS32-1-Fall-2013") ∧
    thisCourse
      [(strOf "123456789",
        (strOf "P", strOf "F", strOf "MATH115A-1-Fall-2013 CS32-1-Fall-2013"))]
      (strOf "MATH115A-1-Fall-2013") = [] ∧
    remainingAfter
      (thisCourse
        [(strOf "123456789",
          (strOf "P", strOf "F", strOf "MATH115A-1-Fall-2013 CS32-1-Fall-2013"))]
        (strOf "MATH115A-1-Fall-2013")) [] = [] := by
  refine ⟨by decide, by decide, by decide⟩

/-- C7 amended: the seeded set holds exactly the ids of store entries
whose tags string contains the course tag wrapped in one space on each
side as a substring (which coincides with whole-token matching whenever
the stored tags string itself starts and ends with a space, as Anki
stores tags); each processed roster id is removed, so the final set holds
exactly the matching ids absent from the roster; no store entry is
modified.  The spec's scenario holds once the stored tags string carries
its surrounding spaces. -/
theorem drop_detection_amended (store : Store) (ctag : Str) (rosterIds : List Str)
    (idn : Str) :
    (idn ∈ remainingAfter (thisCourse store ctag) rosterIds ↔
      (∃ pn fn tg, (idn, (pn, fn, tg)) ∈ store ∧
        isSub (' ' :: (ctag ++ [' '])) tg = true) ∧ idn ∉ rosterIds) ∧
    remainingAfter
      (thisCourse
        [(strOf "123456789",
          (strOf "P", strOf "F", strOf " MATH115A-1-Fall-2013 CS32-1-Fall-2013 "))]
        (strOf "MATH115A-1-Fall-2013")) [] = [strOf "123456789"] := by
  refine ⟨?_, by decide⟩
  rw [remainingAfter_mem]
  apply and_congr_left
  intro _
  constructor
  · intro hmem
    simp only [thisCourse, List.mem_map, List.mem_filter] at hmem
    obtain ⟨⟨i, pn, fn, tg⟩, ⟨hin, hsub⟩, hfst⟩ := hmem
    exact ⟨pn, fn, tg, by simpa [← hfst] using hin, hsub⟩
  · rintro ⟨pn, fn, tg, hin, hsub⟩
    simp only [thisCourse, List.mem_map, List.mem_filter]
    exact ⟨(idn, pn, fn, tg), ⟨hin, hsub⟩, rfl⟩

/-- Witness for C7's amended statement: the spec scenario with the stored
tags string carrying its Anki surrounding spaces; student `123456789` is
reported as dropped. -/
theorem drop_detection_amended_witness :
    strOf "123456789" ∈ remainingAfter
      (thisCourse
        [(strOf "123456789",
          (strOf "P", strOf "F", strOf " MATH115A-1-Fall-2013 CS32-1-Fall-2013 "))]
        (strOf "MATH115A-1-Fall-2013")) [] := by
  have h := drop_detection_amended
    [(strOf "123456789",
      (strOf "P", strOf "F", strOf " MATH115A-1-Fall-2013 CS32-1-Fall-2013 "))]
    (strOf "MATH115A-1-Fall-2013") [] (strOf "123456789")
  exact h.1.mpr ⟨⟨strOf "P", strOf "F",
    strOf " MATH115A-1-Fall-2013 CS32-1-Fall-2013 ", by decide, by decide⟩, by decide⟩

/-- C1 counterexample: on the header the claim itself exhibits,
`"Photo Roster for MATH115A 1 LEC 13F - ..."`, the code does not produce
the tag `MATH115A1-LEC-Fall-2013`; it raises (a `KeyError`), because the
term token is taken from AFTER the dash (here `...`, whose character at
index 2 is `.`, not a term code) and the skipped token is the middle one
before the section, not the one after the dash. -/
theorem course_tag_claim_counterexample :
    courseTag (strOf "Photo Roster for MATH115A 1 LEC 13F - ...") =
      .error (strOf "KeyError: .") ∧
    courseTag (strOf "Photo Roster for MATH115A 1 LEC 13F - ...") ≠
      .ok (strOf "MATH115A1-LEC-Fall-2013") := by
  refine ⟨rfl, ?_⟩
  intro h
  rw [show courseTag (strOf "Photo Roster for MATH115A 1 LEC 13F - ...") =
    Except.error (strOf "KeyError: .") from rfl] at h
  exact Except.noConfusion h

/-- C1 amended: after dropping the 17-character `Photo Roster for `
lead-in, the description must tokenize as
`<SUBJECT> <NUMBER> <IGNORED> <SECTION> - <TERM>` (the unused token is the
third, the literal dash is a token of its own, and the term token follows
the dash); the term token's first two characters are the 2-digit year YY
and its third character the 1-letter term code mapped by W/S/1/F; the
result is `SUBJECTNUMBER-SECTION-TermName-20YY`, e.g.
`MATH115A-1-Fall-2013` from header
`Photo Roster for MATH 115A LEC 1 - 13F`.  A description that does not
match the pattern yields the parse error. -/
theorem course_tag_amended (hdr t1 t2 t3 t4 : Str) (y1 y2 tc : Char) (rest : Str)
    (termName : Str)
    (hsplit : splitWs (hdr.drop 17) = [t1, t2, t3, t4, ['-'], y1 :: y2 :: tc :: rest])
    (hterm : termAbbrevs tc = some termName) :
    courseTag hdr =
      .ok (t1 ++ t2 ++ '-' :: t4 ++ '-' :: termName ++ '-' :: '2' :: '0' :: [y1, y2]) ∧
    ∀ hdr2, courseDescGroups (hdr2.drop 17) = none →
      courseTag hdr2 = .error (strOf "Could not parse course description " ++ hdr2) := by
  constructor
  · simp [courseTag, courseDescGroups, hsplit, hterm]
  · intro hdr2 hnone
    simp [courseTag, hnone]

/-- Witness for C1's amended statement: the real-template header shape
produces the tag format the code's own docstring advertises. -/
theorem course_tag_amended_witness :
    courseTag (strOf "Photo Roster for MATH 115A LEC 1 - 13F") =
      .ok (strOf "MATH115A-1-Fall-2013") := by
  have h := course_tag_amended (strOf "Photo Roster for MATH 115A LEC 1 - 13F")
    (strOf "MATH") (strOf "115A") (strOf "LEC") (strOf "1") '1' '3' 'F' []
    (strOf "Fall") (by decide) (by decide)
  exact h.1

/-- C2 counterexample: for `"SMITH, BOB (ROBERT)"` the parenthetical
content is `ROBERT`, yet `preferred_name` is `Bob Smith` — built from the
PRE-parenthesis component — and it is `full_name` that is `Robert Smith`,
built from the parenthetical.  The claim asserts the opposite assignment
(it would require `preferred_name = "Robert Smith"`). -/
theorem format_name_parenthetical_counterexample :
    formatName (strOf "SMITH, BOB (ROBERT)") =
      .ok (strOf "Bob Smith", strOf "Robert Smith") ∧
    strOf "Bob Smith" ≠ strOf "Robert Smith" := ⟨rfl, by decide⟩

/-- C2 amended: in the `LAST, PREFERRED (FIRST)` layout the parenthetical
holds the legal first name: `preferred_name` is built from the
pre-parenthesis second component and the last name, while `full_name`
uses the parenthetical content as its first name instead. -/
theorem format_name_parenthetical_amended (raw pre inner l p : Str)
    (hpar : parenSplit raw = some (pre, inner, []))
    (hcomp : splitCommaSpace pre = [l, p])
    (hinner : fixcaseStr inner ≠ []) :
    formatName raw =
      .ok (if fixcaseStr p = [] then fixcaseStr l else fixcaseStr p ++ ' ' :: fixcaseStr l,
           joinChar ' ' ([fixcaseStr inner, fixcaseStr l].filter (· ≠ []))) := by
  by_cases hp : fixcaseStr p = [] <;>
    simp [formatName, hpar, formatNameTail, hcomp, hinner, hp, List.filter_cons]

/-- Witness for C2's amended statement at the counterexample's input. -/
theorem format_name_parenthetical_amended_witness :
    formatName (strOf "SMITH, BOB (ROBERT)") =
      .ok (strOf "Bob Smith", strOf "Robert Smith") := by
  have h := format_name_parenthetical_amended (strOf "SMITH, BOB (ROBERT)")
    (strOf "SMITH, BOB ") (strOf "ROBERT") (strOf "SMITH") (strOf "BOB ")
    (by decide) (by decide) (by decide)
  exact h

theorem joinChar_suffix_last (sep : Char) (s : Str) :
    ∀ ps : List Str, s <:+ joinChar sep (ps ++ [s])
  | [] => by simp [joinChar]
  | a :: ps => by
    have ih := joinChar_suffix_last sep s ps
    have heq : joinChar sep ((a :: ps) ++ [s]) = a ++ sep :: joinChar sep (ps ++ [s]) := by
      cases ps <;> rfl
    rw [heq]
    exact (ih.trans (List.suffix_cons sep _)).trans (List.suffix_append a _)

theorem joinChar_infix_mem (sep : Char) :
    ∀ (ps : List Str) (x : Str), x ∈ ps → x <:+: joinChar sep ps
  | [], x, hx => absurd hx (List.not_mem_nil x)
  | [a], x, hx => by
    rw [List.mem_singleton.mp hx]
    exact List.infix_refl (joinChar sep [a])
  | a :: b :: ps, x, hx => by
    have heq : joinChar sep (a :: b :: ps) = a ++ sep :: joinChar sep (b :: ps) := rfl
    rw [heq]
    rcases List.mem_cons.mp hx with rfl | hx
    · exact (List.prefix_append x (sep :: joinChar sep (b :: ps))).isInfix
    · have ih := joinChar_infix_mem sep (b :: ps) x hx
      exact (ih.trans (List.suffix_cons sep _).isInfix).trans (List.suffix_append a _).isInfix

/-- C8 counterexample: for input `"SMITH, JOHN, jr"` the third component
`jr` case-insensitively equals `JR`, but the code normalizes only the
exact upper-case forms `JR`/`SR`, so the full name ends in `jr`, not the
capitalized `Jr` the claim requires. -/
theorem suffix_normalization_counterexample :
    formatName (strOf "SMITH, JOHN, jr") =
      .ok (strOf "John Smith", strOf "John Smith jr") ∧
    ¬ strOf "Jr" <:+ strOf "John Smith jr" := ⟨rfl, by decide⟩

/-- C8 amended: for a 3-component `LAST, FIRST MIDDLE, SUFFIX` input
(with no parenthetical), the full name contains the case-corrected last
name and ends with the suffix, which is normalized to `Jr`/`Sr` exactly
when the third component is exactly the upper-case `JR`/`SR` and is kept
verbatim otherwise. -/
theorem suffix_normalization_amended (raw l fm suf : Str)
    (hpar : parenSplit raw = none)
    (hcomp : splitCommaSpace raw = [l, fm, suf]) :
    ∃ pn fn, formatName raw = .ok (pn, fn) ∧
      fixcaseStr l <:+: fn ∧
      (if suf = strOf "JR" then strOf "Jr"
       else if suf = strOf "SR" then strOf "Sr" else suf) <:+ fn := by
  have hres : formatName raw =
      .ok (if fixcaseStr (partitionSp fm).1 = [] then fixcaseStr l
           else fixcaseStr (partitionSp fm).1 ++ ' ' :: fixcaseStr l,
           joinChar ' '
             (([fixcaseStr (partitionSp fm).1, fixcaseStr (partitionSp fm).2, fixcaseStr l,
                if suf = strOf "JR" then strOf "Jr"
                else if suf = strOf "SR" then strOf "Sr" else suf]).filter (· ≠ []))) := by
    by_cases hp : fixcaseStr (partitionSp fm).1 = [] <;>
      simp [formatName, hpar, formatNameTail, hcomp, hp]
  refine ⟨_, _, hres, ?_, ?_⟩
  · by_cases hl : fixcaseStr l = []
    · rw [hl]
      exact List.nil_infix
    · refine joinChar_infix_mem ' ' _ _ ?_
      refine List.mem_filter.mpr ⟨by simp, by simp [hl]⟩
  · set sfx := if suf = strOf "JR" then strOf "Jr"
      else if suf = strOf "SR" then strOf "Sr" else suf with hsfx
    by_cases hs : sfx = []
    · rw [hs]
      exact List.nil_suffix
    · have hsplit4 : [fixcaseStr (partitionSp fm).1, fixcaseStr (partitionSp fm).2,
          fixcaseStr l, sfx] =
          [fixcaseStr (partitionSp fm).1, fixcaseStr (partitionSp fm).2, fixcaseStr l] ++
            [sfx] := rfl
      have hone : List.filter (fun x => decide (x ≠ [])) [sfx] = [sfx] := by simp [hs]
      rw [hsplit4, List.filter_append, hone]
      exact joinChar_suffix_last ' ' sfx _

/-- Witness for C8's amended statement at the standard suffix input. -/
theorem suffix_normalization_amended_witness :
    ∃ pn fn, formatName (strOf "SMITH, JOHN ALLEN, JR") = .ok (pn, fn) ∧
      fixcaseStr (strOf "SMITH") <:+: fn ∧
      (if strOf "JR" = strOf "JR" then strOf "Jr"
       else if strOf "JR" = strOf "SR" then strOf "Sr" else strOf "JR") <:+ fn :=
  suffix_normalization_amended (strOf "SMITH, JOHN ALLEN, JR") (strOf "SMITH")
    (strOf "JOHN ALLEN") (strOf "JR") (by decide) (by decide)

theorem splitPred_eq_self (p : Char → Bool) (w : Str) (h : ∀ c ∈ w, p c = false) :
    splitPred p w = [w] := by
  induction w with
  | nil => rfl
  | cons c rest ih =>
    have hc := h c (List.mem_cons_self c rest)
    have hr := ih fun x hx => h x (List.mem_cons_of_mem c hx)
    simp [splitPred, hc, hr]

/-- C9 counterexample: the particle test compares the whole word by exact
equality with the upper-case forms, and the first letter is preserved
rather than capitalized, so on the mixed-case word `De` the code returns
`De` while the claim's rule (`particles stay lower-case regardless of the
input's letter case`) demands `de`; likewise `De La Cruz` is left
unchanged instead of becoming `de la Cruz`. -/
theorem fixcase_counterexample :
    fixcaseStr (strOf "De La Cruz") = strOf "De La Cruz" ∧
    fixcaseHyphenated (strOf "De") = strOf "De" ∧
    specFixcaseWord (strOf "De") = strOf "de" ∧
    strOf "De" ≠ strOf "de" := ⟨by decide, by decide, by decide, by decide⟩

/-- C9 amended: on words drawn from the registrar's character set
(upper-case letters and apostrophe, no hyphen) the implementation's
per-word case correction agrees exactly with the specification's rule —
upper-case particles are lower-cased, otherwise the first letter stays
capital, the rest is lower-cased and the `Mc`/`O'`/`D'` third letter is
capitalized — and the three concrete examples hold. -/
theorem fixcase_amended :
    (∀ w : Str, (∀ c ∈ w, c ∈ upperChars) → fixcaseHyphenated w = specFixcaseWord w) ∧
    fixcaseStr (strOf "DE LA CRUZ") = strOf "de la Cruz" ∧
    fixcaseStr (strOf "MCDONALD") = strOf "McDonald" ∧
    fixcaseStr (strOf "O'BRIEN") = strOf "O'Brien" := by
  refine ⟨?_, by decide, by decide, by decide⟩
  intro w hw
  have hupper : ∀ c ∈ w, Char.toUpper c = c := by
    have hset : ∀ c ∈ upperChars, Char.toUpper c = c := by decide
    exact fun c hc => hset c (hw c hc)
  have hlu : ∀ c ∈ w, Char.toUpper (Char.toLower c) = c := by
    have hset : ∀ c ∈ upperChars, Char.toUpper (Char.toLower c) = c := by decide
    exact fun c hc => hset c (hw c hc)
  have hnohyph : ∀ c ∈ w, (c == '-') = false := by
    have hset : ∀ c ∈ upperChars, (c == '-') = false := by decide
    exact fun c hc => hset c (hw c hc)
  by_cases hp : w ∈ upperParticles
  · have hmap : w.map Char.toLower ∈ upperParticles.map (List.map Char.toLower) :=
      List.mem_map_of_mem (List.map Char.toLower) hp
    simp [fixcaseHyphenated, specFixcaseWord, hp, hmap]
  · have hmapnot : w.map Char.toLower ∉ upperParticles.map (List.map Char.toLower) := by
      intro hmem
      obtain ⟨q, hq, hqe⟩ := List.mem_map.mp hmem
      have h1 : w = (w.map Char.toLower).map Char.toUpper := by
        rw [List.map_map]
        symm
        calc List.map (Char.toUpper ∘ Char.toLower) w = List.map id w :=
              List.map_congr_left fun c hc => hlu c hc
          _ = w := List.map_id w
      have h2 : ∀ r ∈ upperParticles, (r.map Char.toLower).map Char.toUpper = r := by decide
      have hwq : w = q := by rw [h1, ← hqe, h2 q hq]
      exact hp (hwq ▸ hq)
    have hsplit : splitPred (· == '-') w = [w] := splitPred_eq_self _ _ hnohyph
    have htake : (w.take 1).map Char.toUpper = w.take 1 := by
      calc (w.take 1).map Char.toUpper = (w.take 1).map id :=
            List.map_congr_left fun c hc => hupper c (List.take_subset 1 w hc)
        _ = w.take 1 := List.map_id _
    simp [fixcaseHyphenated, specFixcaseWord, hp, hmapnot, splitChar, hsplit, joinChar,
      fixcaseWord, htake]

/-- Witness for C9's amended statement: the implementation and the spec
rule agree on the upper-case word `MCDONALD`. -/
theorem fixcase_amended_witness :
    fixcaseHyphenated (strOf "MCDONALD") = specFixcaseWord (strOf "MCDONALD") :=
  fixcase_amended.1 (strOf "MCDONALD") (by decide)
